import Mathlib

/-! Verification of the Champion Go archive-patching tool (`go.go`).

The program has three stages:
* `readAvx` — scan a zip archive for the entry with the greatest embedded
  saved-timestamp under a path prefix;
* `flipToComputer` / `flipBoard180` — mutate fixed offsets of the selected
  record buffer in place;
* `writeAvx` — re-emit the reference archive with one entry's payload
  substituted, every entry tagged deflate but encoded with no compression.

Bytes are modelled as `Nat` (a well-formed buffer has all entries `< 256`);
byte arithmetic wraps explicitly mod 256.  A Go run-time panic (out-of-range
index) is modelled by the `GoResult.crash` constructor (for the scanner) or
by `none` (for the in-place mutators); a returned Go `error` is
`GoResult.error`.  Go index expressions (`body[i]`) are bounded by the
slice's length, but slice expressions (`body[a:b]`) are bounded by its
capacity; every record buffer in this program comes from `ioutil.ReadAll`,
whose result carries at least 512 bytes of zeroed spare capacity, so the
slice expressions `body[60:64]` and `body[56:56]` never panic and bytes at
or past the buffer length read as `0`.
-/

/-- Decode four bytes as a little-endian signed 32-bit integer, the way
`binary.Read(_, binary.LittleEndian, &t)` with `t : int32` does. -/
def le32ToInt (b0 b1 b2 b3 : Nat) : Int :=
  let u : Nat := b0 + 256 * b1 + 65536 * b2 + 16777216 * b3
  if u < 2147483648 then (u : Int) else (u : Int) - 4294967296

/-- Encode an integer as four little-endian bytes of its signed 32-bit
representation, the way `binary.Write(_, binary.LittleEndian, now)` with
`now : int32` does. -/
def le32Bytes (t : Int) : List Nat :=
  let u : Nat := (t.emod 4294967296).toNat
  [u % 256, u / 256 % 256, u / 65536 % 256, u / 16777216 % 256]

/-- Result of running a piece of Go code: a run-time panic (`crash`, e.g. an
out-of-range slice), a returned non-nil `error`, or a normal return. -/
inductive GoResult (α : Type) where
  | crash : GoResult α
  | error : String → GoResult α
  | ok : α → GoResult α
deriving DecidableEq, Repr

/-- One archive entry: a name, a directory flag, and the (decompressed)
payload bytes. -/
structure Entry where
  name : String
  isDir : Bool
  body : List Nat
deriving DecidableEq, Repr

/-- Decoded saved-timestamp of a record buffer: bytes [60,64) as a
little-endian signed 32-bit integer. -/
def savedDate (body : List Nat) : Int :=
  le32ToInt (body.getD 60 0) (body.getD 61 0) (body.getD 62 0) (body.getD 63 0)

/-- Model of `getSavedDate` (go.go lines 26–34).  The slice `body[60:64]`
is capacity-bounded and the `ReadAll` buffer carries at least 512 bytes of
zeroed spare capacity, so it never panics: on a buffer shorter than 64
bytes it reads the zero-padded window, exactly `List.getD _ _ 0` (in
`savedDate`).  On the resulting 4-byte slice `binary.Read` into an `int32`
always succeeds, so the `error` branch of the Go function is unreachable
and the function always returns a value with a nil error. -/
def getSavedDate (body : List Nat) : GoResult Int :=
  GoResult.ok (savedDate body)

/-- Model of `filepath.HasPrefix(name, pfxS)`, which is a plain string-prefix
test. -/
def hasPfx (name pfxS : String) : Bool :=
  pfxS.data.isPrefixOf name.data

/-- An entry survives the scan filter when its name starts with the prefix
and it is not a directory (go.go lines 52–57). -/
def matchesPfx (pfxS : String) (e : Entry) : Bool :=
  hasPfx e.name pfxS && !e.isDir

/-- The scan loop of `readAvx` (go.go lines 51–82), with the accumulator
`latest`, `latestBody`, `latestDate` made explicit.  Reading an entry's
payload is modelled as directly available (`Entry.body`); the loop keeps
the source's propagation of a `getSavedDate` failure (go.go lines 73–76)
even though `getSavedDate` in fact never fails. -/
def readAvxLoop (pfxS : String) : List Entry → String → Option (List Nat) → Int →
    GoResult (String × Option (List Nat))
  | [], latest, latestBody, _ => GoResult.ok (latest, latestBody)
  | f :: rest, latest, latestBody, latestDate =>
    if matchesPfx pfxS f = true then
      match getSavedDate f.body with
      | GoResult.crash => GoResult.crash
      | GoResult.error m => GoResult.error m
      | GoResult.ok d =>
        if latestDate < d then readAvxLoop pfxS rest f.name (some f.body) d
        else readAvxLoop pfxS rest latest latestBody latestDate
    else readAvxLoop pfxS rest latest latestBody latestDate

/-- Model of `readAvx` (go.go lines 36–85) over an already-opened archive and
an arbitrary path prefix: `latest` starts as the empty string, `latestBody`
as nil and `latestDate` as `-1`. -/
def readAvx (archive : List Entry) (pfxS : String) : GoResult (String × Option (List Nat)) :=
  readAvxLoop pfxS archive "" none (-1)

/-- Path prefix of on-device games (go.go line 43). -/
def gamePfx : String := "Container/Documents/game/"

/-- Path prefix of engine-server games (go.go line 45). -/
def gameOnlinePfx : String := "Container/Documents/game-online/"

/-- Go signature of `readAvx`: the `online` flag selects the prefix. -/
def readAvxGo (archive : List Entry) (online : Bool) : GoResult (String × Option (List Nat)) :=
  readAvx archive (if online then gameOnlinePfx else gamePfx)

/-- One coordinate flip, `bs - c + 1` in Go `byte` (unsigned 8-bit, wrapping)
arithmetic (go.go lines 92–93). -/
def flipByte (bs c : Nat) : Nat :=
  (((bs : Int) - (c : Int) + 1).emod 256).toNat

/-- The stride loop of `flipBoard180` (go.go lines 91–94):
`for i := 76; i < len(body); i += 20`.  Each iteration writes indices `i+4`
and `i+8`; when the loop guard admits `i` but `i+4` or `i+8` is out of
range, the Go program panics, modelled as `none`.  Since `i+4 < i+8`, both
index checks amount to `i + 8 < len`. -/
def flipStrides (bs : Nat) (body : List Nat) (i : Nat) : Option (List Nat) :=
  if h : i < body.length then
    if i + 8 < body.length then
      let b1 := body.set (i + 4) (flipByte bs (body.getD (i + 4) 0))
      let b2 := b1.set (i + 8) (flipByte bs (b1.getD (i + 8) 0))
      flipStrides bs b2 (i + 20)
    else none
  else some body
termination_by body.length - i
decreasing_by simp only [List.length_set]; omega

/-- Model of `flipBoard180` (go.go lines 87–95).  `bs := body[8]` panics when
the buffer has at most 8 bytes; the board-size byte is captured before any
coordinate is modified. -/
def flipBoard180 (body : List Nat) : Option (List Nat) :=
  if 8 < body.length then flipStrides (body.getD 8 0) body 76
  else none

/-- Overwrite `vals.length` bytes of `body` starting at offset `off`. -/
def setRange (body : List Nat) (off : Nat) (vals : List Nat) : List Nat :=
  match vals with
  | [] => body
  | v :: vs => setRange (body.set off v) (off + 1) vs

/-- Timestamp step of `flipToComputer` (go.go lines 115–118):
`bytes.NewBuffer(body[56:56])` followed by two little-endian `binary.Write`
calls of the same `int32` appends eight bytes in place over positions
56..63 of the backing array, whose spare capacity (at least 512 bytes from
`ReadAll`) always suffices.  Positions at or past the buffer's length are
invisible through the slice, which `setRange` models exactly because
`List.set` is the identity past the list's length. -/
def writeDates (now : Int) (body : List Nat) : Option (List Nat) :=
  some (setRange body 56 (le32Bytes now ++ le32Bytes now))

/-- Model of `flipToComputer` (go.go lines 97–119) with the global `*player`
flag and the current time passed as parameters.  Each indexing assignment
panics (`none`) when its offset is out of range. -/
def flipToComputer (player : String) (now : Int) (body : List Nat) : Option (List Nat) :=
  if 4 < body.length then
    let b1 := body.set 4 1
    let step2 : Option (List Nat) :=
      if player = "w" then
        if 12 < b1.length then flipBoard180 (b1.set 12 1) else none
      else
        if 12 < b1.length then some (b1.set 12 0) else none
    match step2 with
    | none => none
    | some b2 =>
      if 16 < b2.length then writeDates now (b2.set 16 10)
      else none
  else none

/-- Compression method identifier `zip.Deflate` (archive/zip constant 8). -/
def zipDeflate : Nat := 8

/-- Compression method identifier `zip.Store` (archive/zip constant 0). -/
def zipStore : Nat := 0

/-- Compression level `flate.NoCompression` (compress/flate constant 0): the
flate stream stores its input verbatim in uncompressed blocks. -/
def flateNoCompression : Int := 0

/-- One entry of the rewritten archive: the name, the compression-method tag
recorded in the entry header, the flate level the registered compressor runs
at, and the (raw, pre-encoding) payload bytes. -/
structure OutEntry where
  name : String
  method : Nat
  level : Int
  payload : List Nat
deriving DecidableEq, Repr

/-- Model of `writeAvx` (go.go lines 121–166).  `zip.NewWriter` plus
`RegisterCompressor(zip.Deflate, flate.NewWriter(_, flate.NoCompression))`
means every entry created by `zw.Create` carries the default method tag
`zip.Deflate` while its payload is passed through the no-compression flate
writer.  The loop re-creates every reference entry in order, writing
`latestBody` for the entry named `firstOnline` and copying the original
payload otherwise. -/
def writeAvx (refEntries : List Entry) (firstOnline : String) (latestBody : List Nat) :
    List OutEntry :=
  refEntries.map fun f =>
    { name := f.name
      method := zipDeflate
      level := flateNoCompression
      payload := if f.name = firstOnline then latestBody else f.body }

/-- Pure form of the scan loop on buffers whose saved-date read cannot panic:
same accumulator discipline as `readAvxLoop`, no failure cases. -/
def selGo (pfxS : String) : List Entry → String × Option (List Nat) × Int →
    String × Option (List Nat) × Int
  | [], acc => acc
  | f :: rest, acc =>
    if matchesPfx pfxS f = true ∧ acc.2.2 < savedDate f.body then
      selGo pfxS rest (f.name, some f.body, savedDate f.body)
    else selGo pfxS rest acc

/-- Positions the stride loop starting at `i` writes in a buffer of length
`len`: offsets 4 and 8 of each stride whose start is below `len`. -/
def IsCoordFrom (i len j : Nat) : Prop :=
  ∃ k, i + 20 * k < len ∧ (j = i + 20 * k + 4 ∨ j = i + 20 * k + 8)

/-! Helper lemmas about `List.set`, `setRange` and the stride loop. -/

lemma getD_set_self (l : List Nat) (i v : Nat) (h : i < l.length) :
    (l.set i v).getD i 0 = v := by
  simp [List.getD_eq_getElem?_getD, List.getElem?_set_self h]

lemma getD_set_ne (l : List Nat) {i j : Nat} (v : Nat) (h : i ≠ j) :
    (l.set i v).getD j 0 = l.getD j 0 := by
  simp [List.getD_eq_getElem?_getD, List.getElem?_set_ne h]

lemma setRange_length (vals : List Nat) : ∀ (body : List Nat) (off : Nat),
    (setRange body off vals).length = body.length := by
  induction vals with
  | nil => intro body off; rfl
  | cons v vs ih => intro body off; rw [setRange, ih, List.length_set]

lemma setRange_getD_lo (vals : List Nat) : ∀ (body : List Nat) (off j : Nat), j < off →
    (setRange body off vals).getD j 0 = body.getD j 0 := by
  induction vals with
  | nil => intro body off j _; rfl
  | cons v vs ih =>
    intro body off j hj
    rw [setRange, ih _ _ _ (by omega), getD_set_ne _ _ (by omega)]

lemma setRange_getD_hi (vals : List Nat) : ∀ (body : List Nat) (off j : Nat),
    off + vals.length ≤ j →
    (setRange body off vals).getD j 0 = body.getD j 0 := by
  induction vals with
  | nil => intro body off j _; rfl
  | cons v vs ih =>
    intro body off j hj
    simp only [List.length_cons] at hj
    rw [setRange, ih _ _ _ (by omega), getD_set_ne _ _ (by omega)]

lemma setRange_getD_in (vals : List Nat) : ∀ (body : List Nat) (off m : Nat),
    m < vals.length → off + m < body.length →
    (setRange body off vals).getD (off + m) 0 = vals.getD m 0 := by
  induction vals with
  | nil => intro body off m hm _; simp at hm
  | cons v vs ih =>
    intro body off m hm hoff
    match m with
    | 0 =>
      rw [setRange, setRange_getD_lo _ _ _ _ (by omega)]
      simpa using getD_set_self body off v (by omega)
    | Nat.succ m' =>
      simp only [List.length_cons] at hm
      have := ih (body.set off v) (off + 1) m' (by omega)
        (by rw [List.length_set]; omega)
      rw [setRange]
      have harg : off + (m' + 1) = off + 1 + m' := by omega
      rw [harg, this]
      rfl

lemma isCoordFrom_ge {i len j : Nat} (h : IsCoordFrom i len j) : i + 4 ≤ j := by
  obtain ⟨k, _, hj⟩ := h; omega

lemma isCoordFrom_lt {i len j : Nat}
    (hno : ∀ k, i + 20 * k < len → i + 20 * k + 8 < len)
    (h : IsCoordFrom i len j) : j < len := by
  obtain ⟨k, hk, hj⟩ := h
  have := hno k hk
  omega

lemma not_isCoordFrom_of_le {i len j : Nat} (h : len ≤ i) : ¬ IsCoordFrom i len j := by
  rintro ⟨k, hk, _⟩; omega

lemma isCoordFrom_step {i len j : Nat} (hi : i < len) :
    IsCoordFrom i len j ↔ (j = i + 4 ∨ j = i + 8 ∨ IsCoordFrom (i + 20) len j) := by
  constructor
  · rintro ⟨k, hk, hj⟩
    match k with
    | 0 => omega
    | Nat.succ k' =>
      right; right
      exact ⟨k', by omega, by omega⟩
  · rintro (hj | hj | ⟨k, hk, hj⟩)
    · exact ⟨0, by omega, by omega⟩
    · exact ⟨0, by omega, by omega⟩
    · exact ⟨k + 1, by omega, by omega⟩

lemma flipStrides_oob (bs : Nat) : ∀ (n : Nat) (body : List Nat) (i : Nat),
    body.length - i ≤ n →
    (∃ k, i + 20 * k < body.length ∧ body.length ≤ i + 20 * k + 8) →
    flipStrides bs body i = none := by
  intro n
  induction n with
  | zero =>
    intro body i hn ⟨k, hk1, hk2⟩
    omega
  | succ n ih =>
    intro body i hn hex
    rw [flipStrides]
    by_cases hi : i < body.length
    · rw [dif_pos hi]
      by_cases h8 : i + 8 < body.length
      · rw [if_pos h8]
        apply ih
        · simp only [List.length_set]; omega
        · obtain ⟨k, hk1, hk2⟩ := hex
          refine ⟨k - 1, ?_, ?_⟩ <;> simp only [List.length_set] <;> omega
      · rw [if_neg h8]
    · exfalso
      obtain ⟨k, hk1, _⟩ := hex
      omega

lemma flipStrides_ok (bs : Nat) : ∀ (n : Nat) (body : List Nat) (i : Nat),
    body.length - i ≤ n →
    (∀ k, i + 20 * k < body.length → i + 20 * k + 8 < body.length) →
    ∃ out, flipStrides bs body i = some out ∧ out.length = body.length ∧
      (∀ j, IsCoordFrom i body.length j → out.getD j 0 = flipByte bs (body.getD j 0)) ∧
      (∀ j, ¬ IsCoordFrom i body.length j → out.getD j 0 = body.getD j 0) := by
  intro n
  induction n with
  | zero =>
    intro body i hn _
    have hi : ¬ i < body.length := by omega
    refine ⟨body, ?_, rfl, ?_, fun j _ => rfl⟩
    · rw [flipStrides, dif_neg hi]
    · intro j hj
      exact absurd hj (not_isCoordFrom_of_le (by omega))
  | succ n ih =>
    intro body i hn hno
    by_cases hi : i < body.length
    · have h8 : i + 8 < body.length := by
        have := hno 0 (by omega)
        omega
      set b1 := body.set (i + 4) (flipByte bs (body.getD (i + 4) 0)) with hb1
      set b2 := b1.set (i + 8) (flipByte bs (b1.getD (i + 8) 0)) with hb2
      have hlen2 : b2.length = body.length := by
        rw [hb2, hb1, List.length_set, List.length_set]
      obtain ⟨out, hout, hlen, hcoord, hncoord⟩ := ih b2 (i + 20)
        (by omega) (by rw [hlen2]; intro k hk; have := hno (k + 1) (by omega); omega)
      have heq : flipStrides bs body i = some out := by
        rw [flipStrides, dif_pos hi, if_pos h8]
        exact hout
      have hb2_at4 : b2.getD (i + 4) 0 = flipByte bs (body.getD (i + 4) 0) := by
        rw [hb2, getD_set_ne _ _ (by omega), hb1]
        exact getD_set_self _ _ _ (by omega)
      have hb1_at8 : b1.getD (i + 8) 0 = body.getD (i + 8) 0 := by
        rw [hb1]; exact getD_set_ne _ _ (by omega)
      have hb2_at8 : b2.getD (i + 8) 0 = flipByte bs (body.getD (i + 8) 0) := by
        rw [hb2, ← hb1_at8]
        exact getD_set_self _ _ _ (by rw [hb1, List.length_set]; omega)
      have hb2_other : ∀ j, j ≠ i + 4 → j ≠ i + 8 → b2.getD j 0 = body.getD j 0 := by
        intro j h4 h8'
        rw [hb2, getD_set_ne _ _ (Ne.symm h8'), hb1, getD_set_ne _ _ (Ne.symm h4)]
      refine ⟨out, heq, by rw [hlen, hlen2], ?_, ?_⟩
      · intro j hj
        rcases (isCoordFrom_step hi).mp hj with rfl | rfl | hj'
        · have hnc : ¬ IsCoordFrom (i + 20) b2.length (i + 4) := by
            rw [hlen2]
            rintro ⟨k, _, hk⟩
            omega
          rw [hncoord _ hnc, hb2_at4]
        · have hnc : ¬ IsCoordFrom (i + 20) b2.length (i + 8) := by
            rw [hlen2]
            rintro ⟨k, _, hk⟩
            omega
          rw [hncoord _ hnc, hb2_at8]
        · have hj4 : j ≠ i + 4 := by
            obtain ⟨k, _, hk⟩ := hj'
            omega
          have hj8 : j ≠ i + 8 := by
            obtain ⟨k, _, hk⟩ := hj'
            omega
          rw [hcoord j (by rw [hlen2]; exact hj'), hb2_other j hj4 hj8]
      · intro j hj
        have hj4 : j ≠ i + 4 := fun h =>
          hj ((isCoordFrom_step hi).mpr (Or.inl h))
        have hj8 : j ≠ i + 8 := fun h =>
          hj ((isCoordFrom_step hi).mpr (Or.inr (Or.inl h)))
        have hnc : ¬ IsCoordFrom (i + 20) b2.length j := by
          rw [hlen2]
          intro h
          exact hj ((isCoordFrom_step hi).mpr (Or.inr (Or.inr h)))
        rw [hncoord j hnc, hb2_other j hj4 hj8]
    · refine ⟨body, ?_, rfl, ?_, fun j _ => rfl⟩
      · rw [flipStrides, dif_neg hi]
      · intro j hj
        exact absurd hj (not_isCoordFrom_of_le (by omega))

lemma flipBoard180_ok (body : List Nat) (h8 : 8 < body.length)
    (hno : ∀ k, 76 + 20 * k < body.length → 76 + 20 * k + 8 < body.length) :
    ∃ out, flipBoard180 body = some out ∧ out.length = body.length ∧
      (∀ j, IsCoordFrom 76 body.length j →
        out.getD j 0 = flipByte (body.getD 8 0) (body.getD j 0)) ∧
      (∀ j, ¬ IsCoordFrom 76 body.length j → out.getD j 0 = body.getD j 0) := by
  obtain ⟨out, hout, hlen, hc, hnc⟩ :=
    flipStrides_ok (body.getD 8 0) body.length body 76 (by omega) hno
  exact ⟨out, by rw [flipBoard180, if_pos h8]; exact hout, hlen, hc, hnc⟩

lemma flipByte_flipByte (n c : Nat) (hc : c < 256) : flipByte n (flipByte n c) = c := by
  unfold flipByte
  rw [@Int.toNat_of_nonneg ((((n : Int)) - ((c : Int)) + 1).emod 256)
    (Int.emod_nonneg _ (by norm_num))]
  simp only [show ∀ x : Int, x.emod 256 = x % 256 from fun _ => rfl]
  omega

/-! Helper lemmas about the scan loop. -/

lemma readAvxLoop_no_match (pfxS : String) : ∀ (files : List Entry) (la : String)
    (lb : Option (List Nat)) (ld : Int),
    (∀ e ∈ files, matchesPfx pfxS e = false) →
    readAvxLoop pfxS files la lb ld = GoResult.ok (la, lb) := by
  intro files
  induction files with
  | nil => intro la lb ld _; rfl
  | cons f rest ih =>
    intro la lb ld hall
    have hf : matchesPfx pfxS f = false := hall f (List.mem_cons_self f rest)
    rw [readAvxLoop, if_neg (by rw [hf]; exact Bool.false_ne_true)]
    exact ih la lb ld fun e he => hall e (List.mem_cons_of_mem f he)

lemma readAvxLoop_cons_long (pfxS : String) (f : Entry) (rest : List Entry) (la : String)
    (lb : Option (List Nat)) (ld : Int)
    (hf : matchesPfx pfxS f = true) (_h64 : 64 ≤ f.body.length) :
    readAvxLoop pfxS (f :: rest) la lb ld =
      if ld < savedDate f.body then readAvxLoop pfxS rest f.name (some f.body) (savedDate f.body)
      else readAvxLoop pfxS rest la lb ld := by
  rw [readAvxLoop, if_pos hf]
  simp only [getSavedDate]

lemma readAvxLoop_ok (pfxS : String) : ∀ (files : List Entry) (la : String)
    (lb : Option (List Nat)) (ld : Int),
    ∃ p, readAvxLoop pfxS files la lb ld = GoResult.ok p := by
  intro files
  induction files with
  | nil => intro la lb ld; exact ⟨(la, lb), rfl⟩
  | cons f rest ih =>
    intro la lb ld
    by_cases hf : matchesPfx pfxS f = true
    · rw [readAvxLoop, if_pos hf]
      simp only [getSavedDate]
      by_cases hlt : ld < savedDate f.body
      · rw [if_pos hlt]; exact ih _ _ _
      · rw [if_neg hlt]; exact ih _ _ _
    · rw [readAvxLoop, if_neg hf]
      exact ih _ _ _

lemma readAvxLoop_sel (pfxS : String) : ∀ (files : List Entry) (la : String)
    (lb : Option (List Nat)) (ld : Int),
    (∀ e ∈ files, matchesPfx pfxS e = true → 64 ≤ e.body.length) →
    readAvxLoop pfxS files la lb ld =
      GoResult.ok ((selGo pfxS files (la, lb, ld)).1, (selGo pfxS files (la, lb, ld)).2.1) := by
  intro files
  induction files with
  | nil => intro la lb ld _; rfl
  | cons f rest ih =>
    intro la lb ld hlen
    have hrest : ∀ e ∈ rest, matchesPfx pfxS e = true → 64 ≤ e.body.length :=
      fun e he hm => hlen e (List.mem_cons_of_mem f he) hm
    by_cases hf : matchesPfx pfxS f = true
    · have h64 : 64 ≤ f.body.length := hlen f (List.mem_cons_self f rest) hf
      rw [readAvxLoop_cons_long pfxS f rest la lb ld hf h64]
      by_cases hlt : ld < savedDate f.body
      · have hsel : selGo pfxS (f :: rest) (la, lb, ld) =
            selGo pfxS rest (f.name, some f.body, savedDate f.body) := by
          rw [selGo, if_pos ⟨hf, hlt⟩]
        rw [if_pos hlt, hsel]
        exact ih _ _ _ hrest
      · have hsel : selGo pfxS (f :: rest) (la, lb, ld) = selGo pfxS rest (la, lb, ld) := by
          rw [selGo, if_neg (fun h => hlt h.2)]
        rw [if_neg hlt, hsel]
        exact ih _ _ _ hrest
    · have hsel : selGo pfxS (f :: rest) (la, lb, ld) = selGo pfxS rest (la, lb, ld) := by
        rw [selGo, if_neg (fun h => hf h.1)]
      rw [readAvxLoop, if_neg hf, hsel]
      exact ih _ _ _ hrest

lemma selGo_spec (pfxS : String) :
    ∀ (files : List Entry) (acc : String × Option (List Nat) × Int),
    ((∀ e ∈ files, matchesPfx pfxS e = true → savedDate e.body ≤ acc.2.2) →
      selGo pfxS files acc = acc) ∧
    ((∃ e ∈ files, matchesPfx pfxS e = true ∧ acc.2.2 < savedDate e.body) →
      ∃ l₁ e l₂, files = l₁ ++ e :: l₂ ∧ matchesPfx pfxS e = true ∧
        acc.2.2 < savedDate e.body ∧
        selGo pfxS files acc = (e.name, some e.body, savedDate e.body) ∧
        (∀ a ∈ l₁, matchesPfx pfxS a = true → savedDate a.body < savedDate e.body) ∧
        (∀ a ∈ l₂, matchesPfx pfxS a = true → savedDate a.body ≤ savedDate e.body)) := by
  intro files
  induction files with
  | nil =>
    intro acc
    refine ⟨fun _ => rfl, ?_⟩
    rintro ⟨e, he, _⟩
    exact absurd he (List.not_mem_nil e)
  | cons f rest ih =>
    intro acc
    by_cases hcond : matchesPfx pfxS f = true ∧ acc.2.2 < savedDate f.body
    · have hsel : selGo pfxS (f :: rest) acc =
          selGo pfxS rest (f.name, some f.body, savedDate f.body) := by
        rw [selGo, if_pos hcond]
      constructor
      · intro hall
        have := hall f (List.mem_cons_self f rest) hcond.1
        exact absurd hcond.2 (by omega)
      · intro _
        by_cases hrest : ∃ e ∈ rest, matchesPfx pfxS e = true ∧ savedDate f.body < savedDate e.body
        · obtain ⟨l₁, e, l₂, hsplit, hm, hlt, hsel2, hl₁, hl₂⟩ :=
            (ih (f.name, some f.body, savedDate f.body)).2 hrest
          refine ⟨f :: l₁, e, l₂, by rw [hsplit, List.cons_append], hm, lt_trans hcond.2 hlt,
            by rw [hsel, hsel2], ?_, hl₂⟩
          intro a ha hma
          rcases List.mem_cons.mp ha with rfl | ha'
          · exact hlt
          · exact hl₁ a ha' hma
        · push_neg at hrest
          have hkeep := (ih (f.name, some f.body, savedDate f.body)).1 hrest
          refine ⟨[], f, rest, rfl, hcond.1, hcond.2, by rw [hsel, hkeep], ?_, hrest⟩
          intro a ha
          exact absurd ha (List.not_mem_nil a)
    · have hsel : selGo pfxS (f :: rest) acc = selGo pfxS rest acc := by
        rw [selGo, if_neg hcond]
      constructor
      · intro hall
        rw [hsel]
        exact (ih acc).1 fun e he hm => hall e (List.mem_cons_of_mem f he) hm
      · rintro ⟨e, he, hm, hlt⟩
        rcases List.mem_cons.mp he with rfl | he'
        · exact absurd ⟨hm, hlt⟩ hcond
        · obtain ⟨l₁, e', l₂, hsplit, hm', hlt', hsel2, hl₁, hl₂⟩ :=
            (ih acc).2 ⟨e, he', hm, hlt⟩
          refine ⟨f :: l₁, e', l₂, by rw [hsplit, List.cons_append], hm', hlt',
            by rw [hsel, hsel2], ?_, hl₂⟩
          intro a ha hma
          rcases List.mem_cons.mp ha with rfl | ha'
          · have hnlt : ¬ acc.2.2 < savedDate a.body := fun hl => hcond ⟨hma, hl⟩
            omega
          · exact hl₁ a ha' hma

/-! Claims. -/

/-- C1 counterexample: a 77-byte buffer has a stride start (76) strictly
below its length but its coordinate bytes (80 and 84) at or beyond it, and
`flipBoard180` performs an out-of-bounds access (run-time panic) on it
instead of treating the partial stride as no stride. -/
theorem c1_counterexample : flipBoard180 (List.replicate 77 0) = none := by
  rw [flipBoard180, if_pos (by simp)]
  rw [flipStrides]
  simp

/-- C1 (amended): the flip loop stops before any stride whose start offset
is at or beyond the buffer end, and performs no out-of-bounds access when
every admitted stride's coordinate bytes are in range; but a buffer whose
length lies strictly between a stride start and that stride's last touched
byte makes the loop access out of bounds (run-time panic) rather than
treating the partial stride as no stride. -/
theorem c1_flip_stride_bounds : ∀ body : List Nat, 8 < body.length →
    ((∀ k, 76 + 20 * k < body.length → 76 + 20 * k + 8 < body.length) →
      ∃ out, flipBoard180 body = some out ∧ out.length = body.length) ∧
    ((∃ k, 76 + 20 * k < body.length ∧ body.length ≤ 76 + 20 * k + 8) →
      flipBoard180 body = none) := by
  intro body h8
  constructor
  · intro hno
    obtain ⟨out, hout, hlen, _, _⟩ := flipBoard180_ok body h8 hno
    exact ⟨out, hout, hlen⟩
  · intro hex
    rw [flipBoard180, if_pos h8]
    exact flipStrides_oob _ body.length body 76 (by omega) hex

/-- C1 witness: a 96-byte buffer (one full stride) is flipped in bounds,
while a 100-byte buffer (second stride cut at its coordinate bytes)
crashes. -/
theorem c1_witness :
    (∃ out, flipBoard180 (List.replicate 96 0) = some out ∧
      out.length = (List.replicate 96 0 : List Nat).length) ∧
    flipBoard180 (List.replicate 100 0) = none := by
  constructor
  · exact (c1_flip_stride_bounds (List.replicate 96 0) (by simp)).1
      (by intro k hk; simp only [List.length_replicate] at hk ⊢; omega)
  · exact (c1_flip_stride_bounds (List.replicate 100 0) (by simp)).2
      ⟨1, by simp, by simp⟩

/-- C2 counterexample: an archive with no entry under the prefix makes
`readAvx` return success with the zero accumulator (empty name, nil body),
not an error. -/
theorem c2_counterexample :
    readAvx [⟨"README", false, []⟩] gamePfx = GoResult.ok ("", none) := by decide

/-- C2 (amended): when no non-directory entry's name starts with the
prefix, `readAvx` does not fail: it succeeds and returns the initial
accumulator — the empty name and a nil payload.  No NotFoundError is ever
produced. -/
theorem c2_no_match_succeeds : ∀ (archive : List Entry) (pfxS : String),
    (∀ e ∈ archive, matchesPfx pfxS e = false) →
    readAvx archive pfxS = GoResult.ok ("", none) :=
  fun archive pfxS h => readAvxLoop_no_match pfxS archive "" none (-1) h

/-- C2 witness: an archive holding a foreign file and a directory marker
under the prefix has no matching entry, and the scan succeeds with the zero
result. -/
theorem c2_witness :
    (∀ e ∈ [(⟨"README", false, [7]⟩ : Entry),
        ⟨"Container/Documents/game/", true, []⟩], matchesPfx gamePfx e = false) ∧
    readAvx [(⟨"README", false, [7]⟩ : Entry),
        ⟨"Container/Documents/game/", true, []⟩] gamePfx = GoResult.ok ("", none) :=
  ⟨by decide, c2_no_match_succeeds _ _ (by decide)⟩

/-- C3 counterexample: on the empty buffer `getSavedDate` succeeds with the
zero-padded decode `0`: it returns a value with a nil error, neither a
FormatError-style error nor a crash. -/
theorem c3_counterexample : getSavedDate ([] : List Nat) = GoResult.ok 0 := by decide

/-- C3 (amended): reading the saved timestamp of a buffer shorter than 64
bytes does not fail at all: the slice `body[60:64]` is bounded by the
`ReadAll` buffer's capacity (at least 512 zeroed bytes), so the read
succeeds and decodes the zero-padded window; it never returns an error and
never crashes, and a scan over any archive — matching short entries
included — succeeds and produces its normal output. -/
theorem c3_short_buffer_succeeds :
    (∀ body : List Nat, body.length < 64 →
      getSavedDate body = GoResult.ok (savedDate body) ∧
      (∀ m, getSavedDate body ≠ GoResult.error m) ∧
      getSavedDate body ≠ GoResult.crash) ∧
    (∀ (archive : List Entry) (pfxS : String),
      ∃ p, readAvx archive pfxS = GoResult.ok p) := by
  constructor
  · intro body _
    exact ⟨rfl, fun m h => GoResult.noConfusion h, fun h => GoResult.noConfusion h⟩
  · intro archive pfxS
    exact readAvxLoop_ok pfxS archive "" none (-1)

/-- C3 witness: a 10-byte buffer's timestamp read succeeds without error or
crash, and the scan of an archive whose matching entry carries that 10-byte
payload succeeds. -/
theorem c3_witness :
    ((List.replicate 10 0 : List Nat).length < 64 ∧
      getSavedDate (List.replicate 10 0) = GoResult.ok (savedDate (List.replicate 10 0)) ∧
      (∀ m, getSavedDate (List.replicate 10 0) ≠ GoResult.error m) ∧
      getSavedDate (List.replicate 10 0) ≠ GoResult.crash) ∧
    ∃ p, readAvx [(⟨"Container/Documents/game/s", false, List.replicate 10 0⟩ : Entry)]
      gamePfx = GoResult.ok p :=
  ⟨⟨by decide, (c3_short_buffer_succeeds.1 (List.replicate 10 0) (by decide)).1,
    (c3_short_buffer_succeeds.1 (List.replicate 10 0) (by decide)).2.1,
    (c3_short_buffer_succeeds.1 (List.replicate 10 0) (by decide)).2.2⟩,
   c3_short_buffer_succeeds.2
     [⟨"Container/Documents/game/s", false, List.replicate 10 0⟩] gamePfx⟩

/-- C4 counterexample: an archive whose single matching entry decodes to
saved-timestamp `-5` (trivially the strict maximum among matches) is not
returned: the scan succeeds with the empty accumulator instead. -/
theorem c4_counterexample :
    matchesPfx gamePfx
      ⟨"Container/Documents/game/x", false,
        List.replicate 60 0 ++ [251, 255, 255, 255]⟩ = true ∧
    savedDate (List.replicate 60 0 ++ [251, 255, 255, 255]) = -5 ∧
    readAvx [⟨"Container/Documents/game/x", false,
        List.replicate 60 0 ++ [251, 255, 255, 255]⟩] gamePfx =
      GoResult.ok ("", none) := by decide

/-- C4 (amended): for every archive whose matching entries all carry
payloads of at least 64 bytes and at least one of which has a non-negative
decoded saved-timestamp, `readAvx` returns the name and payload of the
matching entry whose timestamp is the maximum among all matches, and when
several matches share that maximum it returns the first such entry in
iteration order.  (Matches whose timestamps are all negative are never
selected, because the running maximum starts at `-1`.) -/
theorem c4_scan_max_first : ∀ (archive : List Entry) (pfxS : String),
    (∀ e ∈ archive, matchesPfx pfxS e = true → 64 ≤ e.body.length) →
    (∃ e ∈ archive, matchesPfx pfxS e = true ∧ 0 ≤ savedDate e.body) →
    ∃ l₁ e l₂, archive = l₁ ++ e :: l₂ ∧ matchesPfx pfxS e = true ∧
      readAvx archive pfxS = GoResult.ok (e.name, some e.body) ∧
      (∀ a ∈ l₁, matchesPfx pfxS a = true → savedDate a.body < savedDate e.body) ∧
      (∀ a ∈ archive, matchesPfx pfxS a = true → savedDate a.body ≤ savedDate e.body) := by
  intro archive pfxS hlen hex
  obtain ⟨e0, he0, hm0, hd0⟩ := hex
  have hsel := readAvxLoop_sel pfxS archive "" none (-1) hlen
  obtain ⟨l₁, e, l₂, hsplit, hm, hlt, hgo, hl₁, hl₂⟩ :=
    (selGo_spec pfxS archive ("", none, -1)).2
      ⟨e0, he0, hm0, show (-1 : Int) < savedDate e0.body by omega⟩
  refine ⟨l₁, e, l₂, hsplit, hm, ?_, hl₁, ?_⟩
  · rw [readAvx, hsel, hgo]
  · intro a ha hma
    rw [hsplit] at ha
    rcases List.mem_append.mp ha with h1 | h2
    · exact le_of_lt (hl₁ a h1 hma)
    · rcases List.mem_cons.mp h2 with rfl | h3
      · exact le_refl _
      · exact hl₂ a h3 hma

/-- C4 witness: among two matching 64-byte entries with timestamps 100 and
50, the scan returns the one with timestamp 100. -/
theorem c4_witness :
    (∀ e ∈ [(⟨"Container/Documents/game/a", false,
        List.replicate 60 0 ++ [100, 0, 0, 0]⟩ : Entry),
        ⟨"Container/Documents/game/b", false,
          List.replicate 60 0 ++ [50, 0, 0, 0]⟩],
      matchesPfx gamePfx e = true → 64 ≤ e.body.length) ∧
    (∃ e ∈ [(⟨"Container/Documents/game/a", false,
        List.replicate 60 0 ++ [100, 0, 0, 0]⟩ : Entry),
        ⟨"Container/Documents/game/b", false,
          List.replicate 60 0 ++ [50, 0, 0, 0]⟩],
      matchesPfx gamePfx e = true ∧ 0 ≤ savedDate e.body) ∧
    ∃ l₁ e l₂,
      ([(⟨"Container/Documents/game/a", false,
          List.replicate 60 0 ++ [100, 0, 0, 0]⟩ : Entry),
          ⟨"Container/Documents/game/b", false,
            List.replicate 60 0 ++ [50, 0, 0, 0]⟩] : List Entry) = l₁ ++ e :: l₂ ∧
      matchesPfx gamePfx e = true ∧
      readAvx [(⟨"Container/Documents/game/a", false,
          List.replicate 60 0 ++ [100, 0, 0, 0]⟩ : Entry),
          ⟨"Container/Documents/game/b", false,
            List.replicate 60 0 ++ [50, 0, 0, 0]⟩] gamePfx =
        GoResult.ok (e.name, some e.body) ∧
      (∀ a ∈ l₁, matchesPfx gamePfx a = true → savedDate a.body < savedDate e.body) ∧
      (∀ a ∈ [(⟨"Container/Documents/game/a", false,
          List.replicate 60 0 ++ [100, 0, 0, 0]⟩ : Entry),
          ⟨"Container/Documents/game/b", false,
            List.replicate 60 0 ++ [50, 0, 0, 0]⟩],
        matchesPfx gamePfx a = true → savedDate a.body ≤ savedDate e.body) :=
  ⟨by decide, by decide, c4_scan_max_first _ gamePfx (by decide) (by decide)⟩

/-- C10 (implicit): a scan winner always carries a non-negative decoded
saved-timestamp, because the running maximum starts at `-1` and an entry
wins only with a strictly greater timestamp; an archive whose matching
entries all carry negative timestamps yields exactly the result of an
archive with no matching entries. -/
theorem c10_winner_nonneg : ∀ (archive : List Entry) (pfxS : String),
    (∀ e ∈ archive, matchesPfx pfxS e = true → 64 ≤ e.body.length) →
    (∀ nm b, readAvx archive pfxS = GoResult.ok (nm, some b) → 0 ≤ savedDate b) ∧
    ((∀ e ∈ archive, matchesPfx pfxS e = true → savedDate e.body < 0) →
      readAvx archive pfxS = readAvx [] pfxS) := by
  intro archive pfxS hlen
  have hsel := readAvxLoop_sel pfxS archive "" none (-1) hlen
  constructor
  · intro nm b hok
    have hok' : readAvxLoop pfxS archive "" none (-1) = GoResult.ok (nm, some b) := hok
    by_cases hex : ∃ e ∈ archive, matchesPfx pfxS e = true ∧ (-1 : Int) < savedDate e.body
    · obtain ⟨l₁, e, l₂, _, _, hlt, hgo, _, _⟩ :=
        (selGo_spec pfxS archive ("", none, -1)).2 hex
      have heq := hsel.symm.trans hok'
      rw [hgo] at heq
      simp only [GoResult.ok.injEq, Prod.mk.injEq, Option.some.injEq] at heq
      rw [← heq.2]
      have hlt' : (-1 : Int) < savedDate e.body := hlt
      omega
    · push_neg at hex
      have hkeep := (selGo_spec pfxS archive ("", none, -1)).1
        fun e he hm => by
          have := hex e he hm
          show savedDate e.body ≤ (-1 : Int)
          omega
      have heq := hsel.symm.trans hok'
      rw [hkeep] at heq
      simp only [GoResult.ok.injEq, Prod.mk.injEq] at heq
      exact absurd heq.2 (by simp)
  · intro hneg
    have hkeep := (selGo_spec pfxS archive ("", none, -1)).1
      fun e he hm => by
        have := hneg e he hm
        show savedDate e.body ≤ (-1 : Int)
        omega
    rw [readAvx, hsel, hkeep]
    rfl

/-- C10 witness: an archive whose only matching entry decodes to `-1`
yields the empty-archive result, and no successful body can be extracted
with a negative timestamp. -/
theorem c10_witness :
    (∀ e ∈ [(⟨"Container/Documents/game/n", false,
        List.replicate 60 0 ++ [255, 255, 255, 255]⟩ : Entry)],
      matchesPfx gamePfx e = true → 64 ≤ e.body.length) ∧
    (∀ nm b, readAvx [(⟨"Container/Documents/game/n", false,
        List.replicate 60 0 ++ [255, 255, 255, 255]⟩ : Entry)] gamePfx =
        GoResult.ok (nm, some b) → 0 ≤ savedDate b) ∧
    readAvx [(⟨"Container/Documents/game/n", false,
        List.replicate 60 0 ++ [255, 255, 255, 255]⟩ : Entry)] gamePfx =
      readAvx [] gamePfx :=
  ⟨by decide,
   (c10_winner_nonneg _ gamePfx (by decide)).1,
   (c10_winner_nonneg _ gamePfx (by decide)).2 (by decide)⟩

/-- C5: `writeAvx` reproduces exactly the reference archive's entry names
in their original order, and every output payload equals the reference
payload except at entries named by the substitute name, which receive the
substitute bytes. -/
theorem c5_rewrite_frame : ∀ (refs : List Entry) (sub : String) (bytes : List Nat),
    (writeAvx refs sub bytes).map OutEntry.name = refs.map Entry.name ∧
    ∀ i, i < refs.length →
      ((writeAvx refs sub bytes).getD i ⟨"", 0, 0, []⟩).payload =
        if (refs.getD i ⟨"", false, []⟩).name = sub then bytes
        else (refs.getD i ⟨"", false, []⟩).body := by
  intro refs sub bytes
  constructor
  · rw [writeAvx, List.map_map]
    rfl
  · intro i hi
    have hlen : (writeAvx refs sub bytes).length = refs.length := by
      rw [writeAvx, List.length_map]
    rw [List.getD_eq_getElem _ _ (by omega), List.getD_eq_getElem _ _ hi]
    simp only [writeAvx, List.getElem_map]

/-- C5 witness: a two-entry reference with the second entry substituted
keeps both names and replaces exactly the second payload. -/
theorem c5_witness :
    (writeAvx [(⟨"keep", false, [1, 2]⟩ : Entry), ⟨"swap", false, [3]⟩]
        "swap" [9]).map OutEntry.name =
      ([(⟨"keep", false, [1, 2]⟩ : Entry), ⟨"swap", false, [3]⟩]).map Entry.name ∧
    ((writeAvx [(⟨"keep", false, [1, 2]⟩ : Entry), ⟨"swap", false, [3]⟩]
        "swap" [9]).getD 1 ⟨"", 0, 0, []⟩).payload =
      if (([(⟨"keep", false, [1, 2]⟩ : Entry), ⟨"swap", false, [3]⟩]).getD 1
          ⟨"", false, []⟩).name = "swap" then [9]
      else (([(⟨"keep", false, [1, 2]⟩ : Entry), ⟨"swap", false, [3]⟩]).getD 1
          ⟨"", false, []⟩).body :=
  ⟨(c5_rewrite_frame [⟨"keep", false, [1, 2]⟩, ⟨"swap", false, [3]⟩] "swap" [9]).1,
   (c5_rewrite_frame [⟨"keep", false, [1, 2]⟩, ⟨"swap", false, [3]⟩] "swap" [9]).2
     1 (by decide)⟩

/-- C7: for a buffer of length at least 64, the timestamp step overwrites
bytes [56,60) and [60,64) with the same little-endian signed 32-bit
encoding of `now` and leaves every other byte unchanged. -/
theorem c7_timestamp_overwrite : ∀ (body : List Nat) (now : Int), 64 ≤ body.length →
    ∃ out, writeDates now body = some out ∧ out.length = body.length ∧
      (∀ m, m < 4 → out.getD (56 + m) 0 = (le32Bytes now).getD m 0 ∧
        out.getD (60 + m) 0 = (le32Bytes now).getD m 0) ∧
      (∀ j, j < 56 ∨ 64 ≤ j → out.getD j 0 = body.getD j 0) := by
  intro body now h64
  have hvlen : (le32Bytes now ++ le32Bytes now).length = 8 := by
    simp [le32Bytes]
  refine ⟨setRange body 56 (le32Bytes now ++ le32Bytes now),
    rfl, setRange_length _ _ _, ?_, ?_⟩
  · intro m hm
    constructor
    · rw [setRange_getD_in _ _ _ _ (by omega) (by omega)]
      match m, hm with
      | 0, _ => simp [le32Bytes]
      | 1, _ => simp [le32Bytes]
      | 2, _ => simp [le32Bytes]
      | 3, _ => simp [le32Bytes]
    · have harg : 60 + m = 56 + (m + 4) := by omega
      rw [harg, setRange_getD_in _ _ _ _ (by omega) (by omega)]
      match m, hm with
      | 0, _ => simp [le32Bytes]
      | 1, _ => simp [le32Bytes]
      | 2, _ => simp [le32Bytes]
      | 3, _ => simp [le32Bytes]
  · intro j hj
    rcases hj with hlo | hhi
    · exact setRange_getD_lo _ _ _ _ hlo
    · exact setRange_getD_hi _ _ _ _ (by omega)

/-- C7 witness: on a 64-byte zero buffer with `now = 5`, the timestamp step
succeeds, preserves the length, writes the encoding of 5 at both fields and
leaves other offsets alone. -/
theorem c7_witness :
    ∃ out, writeDates 5 (List.replicate 64 0) = some out ∧
      out.length = (List.replicate 64 0 : List Nat).length ∧
      (∀ m, m < 4 → out.getD (56 + m) 0 = (le32Bytes 5).getD m 0 ∧
        out.getD (60 + m) 0 = (le32Bytes 5).getD m 0) ∧
      (∀ j, j < 56 ∨ 64 ≤ j → out.getD j 0 = (List.replicate 64 0 : List Nat).getD j 0) :=
  c7_timestamp_overwrite (List.replicate 64 0) 5 (by decide)

/-- C8: every entry `writeAvx` re-encodes carries the deflate method tag
(never the store tag) while its compressor runs at the no-compression
(pass-through) flate level, and this holds for all entries, not only the
substituted one. -/
theorem c8_deflate_tag_no_compression : ∀ (refs : List Entry) (sub : String)
    (bytes : List Nat) (e : OutEntry), e ∈ writeAvx refs sub bytes →
    e.method = zipDeflate ∧ e.method ≠ zipStore ∧ e.level = flateNoCompression := by
  intro refs sub bytes e he
  rw [writeAvx] at he
  obtain ⟨f, _, rfl⟩ := List.mem_map.mp he
  exact ⟨rfl, by show zipDeflate ≠ zipStore; decide, rfl⟩

/-- C8 witness: both entries of a rewritten two-entry archive carry the
deflate tag and the no-compression level. -/
theorem c8_witness :
    (⟨"keep", zipDeflate, flateNoCompression, [1, 2]⟩ : OutEntry) ∈
      writeAvx [(⟨"keep", false, [1, 2]⟩ : Entry), ⟨"swap", false, [3]⟩] "swap" [9] ∧
    ((⟨"keep", zipDeflate, flateNoCompression, [1, 2]⟩ : OutEntry).method = zipDeflate ∧
      (⟨"keep", zipDeflate, flateNoCompression, [1, 2]⟩ : OutEntry).method ≠ zipStore ∧
      (⟨"keep", zipDeflate, flateNoCompression, [1, 2]⟩ : OutEntry).level =
        flateNoCompression) :=
  ⟨by decide,
   c8_deflate_tag_no_compression [⟨"keep", false, [1, 2]⟩, ⟨"swap", false, [3]⟩]
     "swap" [9] ⟨"keep", zipDeflate, flateNoCompression, [1, 2]⟩ (by decide)⟩

/-- C6: with target color white, `flipToComputer` sets the color flag at
offset 12 to 1 and replaces every stride coordinate byte `c` with
`boardSize - c + 1` in wrapping unsigned 8-bit arithmetic, where the board
size is the byte at offset 8 of the buffer before any mutation (offsets 4,
12 and 16 are below the move area, and offset 8 is never written). -/
theorem c6_white_flip : ∀ (body : List Nat) (now : Int),
    64 ≤ body.length →
    (∀ k, 76 + 20 * k < body.length → 76 + 20 * k + 8 < body.length) →
    ∃ out, flipToComputer "w" now body = some out ∧
      out.getD 12 0 = 1 ∧
      ∀ j, IsCoordFrom 76 body.length j →
        out.getD j 0 = flipByte (body.getD 8 0) (body.getD j 0) := by
  intro body now h64 hno
  have hmlen : ((body.set 4 1).set 12 1).length = body.length := by
    rw [List.length_set, List.length_set]
  obtain ⟨out1, hflip, hlen1, hcoord, hncoord⟩ :=
    flipBoard180_ok ((body.set 4 1).set 12 1) (by omega) (by rw [hmlen]; exact hno)
  rw [hmlen] at hcoord hncoord
  have hwd : writeDates now (out1.set 16 10) =
      some (setRange (out1.set 16 10) 56 (le32Bytes now ++ le32Bytes now)) := rfl
  have hmain : flipToComputer "w" now body =
      some (setRange (out1.set 16 10) 56 (le32Bytes now ++ le32Bytes now)) := by
    rw [flipToComputer, if_pos (show 4 < body.length by omega)]
    show (match (if ("w" : String) = "w" then
        (if 12 < (body.set 4 1).length then flipBoard180 ((body.set 4 1).set 12 1) else none)
      else
        (if 12 < (body.set 4 1).length then some ((body.set 4 1).set 12 0) else none)) with
      | none => none
      | some b2 => if 16 < b2.length then writeDates now (b2.set 16 10) else none) = _
    rw [if_pos (rfl : ("w" : String) = "w"),
      if_pos (show 12 < (body.set 4 1).length by rw [List.length_set]; omega)]
    simp only [hflip]
    rw [if_pos (show 16 < out1.length by rw [hlen1, hmlen]; omega)]
    exact hwd
  refine ⟨_, hmain, ?_, ?_⟩
  · rw [setRange_getD_lo _ _ _ _ (by omega), getD_set_ne _ _ (by omega)]
    rw [hncoord 12 (by rintro ⟨k, hk, hj⟩; omega)]
    rw [getD_set_self _ _ _ (by rw [List.length_set]; omega)]
  · intro j hj
    have hj80 : 80 ≤ j := by obtain ⟨k, hk, hc⟩ := hj; omega
    have hjlt : j < body.length := isCoordFrom_lt hno hj
    rw [setRange_getD_hi _ _ _ _ (by simp [le32Bytes]; omega)]
    rw [getD_set_ne _ _ (by omega)]
    rw [hcoord j hj]
    rw [getD_set_ne _ _ (by omega), getD_set_ne _ _ (by omega),
      getD_set_ne _ _ (by omega), getD_set_ne _ _ (by omega)]

/-- C6 witness: a 96-byte buffer of 2s with board-size byte 2 is mutated
with color flag 1 and flipped coordinates. -/
theorem c6_witness :
    ∃ out, flipToComputer "w" 5 (List.replicate 96 2) = some out ∧
      out.getD 12 0 = 1 ∧
      ∀ j, IsCoordFrom 76 (List.replicate 96 2 : List Nat).length j →
        out.getD j 0 = flipByte ((List.replicate 96 2 : List Nat).getD 8 0)
          ((List.replicate 96 2 : List Nat).getD j 0) :=
  c6_white_flip (List.replicate 96 2) 5 (by decide)
    (by intro k hk; simp only [List.length_replicate] at hk ⊢; omega)

/-- C9: the coordinate transform `c ↦ n - c + 1` in wrapping 8-bit
arithmetic is an involution on bytes, and consequently flipping a board
buffer twice (the board-size byte at offset 8 is untouched by the flip)
restores the original buffer. -/
theorem c9_flip_involution :
    (∀ n c : Nat, c < 256 → flipByte n (flipByte n c) = c) ∧
    (∀ body : List Nat, 8 < body.length →
      (∀ k, 76 + 20 * k < body.length → 76 + 20 * k + 8 < body.length) →
      (∀ b ∈ body, b < 256) →
      ∃ out, flipBoard180 body = some out ∧ flipBoard180 out = some body) := by
  constructor
  · exact flipByte_flipByte
  · intro body h8 hno hbytes
    obtain ⟨out, hout, hlen, hc, hnc⟩ := flipBoard180_ok body h8 hno
    have hbs : out.getD 8 0 = body.getD 8 0 :=
      hnc 8 (by rintro ⟨k, _, hj⟩; omega)
    obtain ⟨out2, hout2, hlen2, hc2, hnc2⟩ :=
      flipBoard180_ok out (by omega) (by rw [hlen]; exact hno)
    have hlen3 : out2.length = body.length := by rw [hlen2, hlen]
    refine ⟨out, hout, ?_⟩
    rw [hout2]
    congr 1
    refine List.ext_getElem hlen3 ?_
    intro n h1 h2
    have hn : n < body.length := h2
    have hgd : out2.getD n 0 = body.getD n 0 := by
      by_cases hcd : IsCoordFrom 76 body.length n
      · rw [hc2 n (by rw [hlen]; exact hcd), hbs, hc n hcd,
          flipByte_flipByte _ _ (by
            rw [List.getD_eq_getElem body 0 hn]
            exact hbytes _ (List.getElem_mem hn))]
      · rw [hnc2 n (by rw [hlen]; exact hcd), hnc n hcd]
    rw [List.getD_eq_getElem out2 0 h1, List.getD_eq_getElem body 0 hn] at hgd
    exact hgd

/-- C9 witness: the transform with board size 19 sends 3 to 17 and back,
and a 96-byte buffer of 3s flips to itself after two applications. -/
theorem c9_witness :
    flipByte 19 (flipByte 19 3) = 3 ∧
    ∃ out, flipBoard180 (List.replicate 96 3) = some out ∧
      flipBoard180 out = some (List.replicate 96 3) :=
  ⟨c9_flip_involution.1 19 3 (by decide),
   c9_flip_involution.2 (List.replicate 96 3) (by decide)
     (by intro k hk; simp only [List.length_replicate] at hk ⊢; omega)
     (by decide)⟩
